import Mathlib

set_option maxRecDepth 1000000

/-!
Verification development for the photo-st-denis transfer backend.

This file gives a shallow embedding, in Lean 4, of the cache-coordinated
archive-generation subsystem of the repository:

* `PhotosConfigService` (photos-config.service.ts): path sanitization and
  image-file filtering;
* `FileProcessingService` (file-processing.service.ts): directory walking
  and archive entry construction;
* `SimpleCacheService` (simple-cache.service.ts): cache keys (SHA-256 of
  the sorted `|`-joined directory list, truncated to 16 hex characters),
  cache lookups, size/age eviction and the temp-file-then-rename ZIP
  generation protocol;
* `TransferController.download` (transfer.controller.ts): the cached /
  real-time download decision.

Machine numbers are modelled as `Nat`/`Int` (with explicit `% 2 ^ 32`
where the SHA-256 rounds overflow) and the MB figures computed by
`bytesToCentiMB` as exact integers scaled by 100; JavaScript
`Math.round` is floor (x + 1/2).
Filesystem-dependent services take their filesystem view (directory
listings, existence checks) as explicit arguments.
-/

namespace PhotoStDenis

/-! ### Node.js posix path primitives

The services use `path.join`, `path.normalize`, `path.basename` and
`path.extname` from Node's posix implementation.  Paths are strings;
the functions below operate on the underlying character lists.
-/

/-- Split a character list on `'/'`; `splitSlash "a/b" = [['a'], ['b']]`,
with empty components for leading, trailing and repeated separators,
mirroring how Node's path parser walks separator-delimited segments. -/
def splitSlash : List Char → List (List Char)
  | [] => [[]]
  | c :: rest =>
    if c = '/' then [] :: splitSlash rest
    else
      match splitSlash rest with
      | [] => [[c]]
      | s :: ss => (c :: s) :: ss

/-- Stack-based segment normalization from Node's `normalizeString`:
empty and `.` segments are dropped, `..` pops a previous segment, pops to
nothing at the root of an absolute path, and accumulates at the front of a
relative path. -/
def normCore (isAbs : Bool) (acc : List (List Char)) : List (List Char) → List (List Char)
  | [] => acc.reverse
  | seg :: rest =>
    if seg = [] ∨ seg = ['.'] then normCore isAbs acc rest
    else if seg = ['.', '.'] then
      match acc with
      | [] => if isAbs then normCore isAbs [] rest else normCore isAbs [seg] rest
      | top :: acc' =>
        if top = ['.', '.'] then normCore isAbs (seg :: top :: acc') rest
        else normCore isAbs acc' rest
    else normCore isAbs (seg :: acc) rest

/-- Intercalate `'/'` between segments. -/
def joinSegs : List (List Char) → List Char
  | [] => []
  | [s] => s
  | s :: rest => s ++ '/' :: joinSegs rest

/-- Node `path.posix.normalize`: resolves `.` and `..` segments, collapses
separators, preserves a trailing slash, returns `"."` (resp. `"/"`) for an
empty relative (resp. absolute) result. -/
def pathNormalize (s : String) : String :=
  let cs := s.data
  let isAbs := cs.head? = some '/'
  let hadTrail := cs.getLast? = some '/'
  let body := joinSegs (normCore isAbs [] (splitSlash cs))
  if body = [] then
    if isAbs then "/" else if hadTrail ∧ cs ≠ ['/'] then "./" else "."
  else
    let withTrail := if hadTrail then body ++ ['/'] else body
    if isAbs then String.mk ('/' :: withTrail) else String.mk withTrail

/-- Node `path.posix.join` restricted to two arguments: concatenate the
non-empty parts with `'/'` and normalize; two empty parts give `"."`. -/
def pathJoin (a b : String) : String :=
  if a = "" ∧ b = "" then "."
  else pathNormalize (if a = "" then b else if b = "" then a else a ++ "/" ++ b)

/-- Node `path.posix.basename`: the last non-empty segment, ignoring
trailing slashes; `""` when the path is empty or all slashes. -/
def basename (s : String) : String :=
  String.mk (((s.data.reverse.dropWhile (· = '/')).takeWhile (· ≠ '/')).reverse)

/-- Node `path.posix.extname`: the suffix of the basename from its last
dot, empty when the last dot is the leading character (dotfiles) or
absent; the special names `.` and `..` have no extension. -/
def extname (s : String) : String :=
  let b := (basename s).data
  if b = ['.'] ∨ b = ['.', '.'] then ""
  else
    let afterDot := b.reverse.takeWhile (· ≠ '.')
    if afterDot.length = b.length then ""
    else if afterDot.length + 1 = b.length then ""
    else String.mk (b.drop (b.length - (afterDot.length + 1)))

/-- A plain path segment: non-empty, not a dot segment, and free of
separators — the shape of a directory basename or of a filename returned
by a directory listing. -/
def plainSeg (s : String) : Bool :=
  (s != "") && (s != ".") && (s != "..") && !(decide ('/' ∈ s.data))

/-- JavaScript `String.prototype.endsWith`. -/
def jsEndsWith (s pat : String) : Bool :=
  List.isSuffixOf pat.data s.data

/-- Lower-case every character, as `String.prototype.toLowerCase` does for
ASCII. -/
def toLowerStr (s : String) : String :=
  String.mk (s.data.map Char.toLower)

/-! ### PhotosConfigService (photos-config.service.ts) -/

/-- Is the character a path separator in the sanitizer's regexes
(`[/\\]`)? -/
def isSepChar (c : Char) : Bool :=
  c = '/' || c = '\\'

/-- Repeatedly strip a leading `../` or `..\` — the regex
`replace(/^(\.\.[/\\])+/, '')` of `sanitizePath`. -/
def stripDotDot : List Char → List Char
  | c1 :: c2 :: c3 :: rest =>
    if c1 = '.' ∧ c2 = '.' ∧ (c3 = '/' ∨ c3 = '\\') then stripDotDot rest
    else c1 :: c2 :: c3 :: rest
  | l => l

/-- Strip all leading separators — the regex `replace(/^[/\\]+/, '')` of
`sanitizePath`. -/
def stripSeps (l : List Char) : List Char :=
  l.dropWhile isSepChar

/-- PhotosConfigService.sanitizePath: normalize, remove leading `../`
(or `..\`) sequences, then strip leading separators. -/
def sanitizePath (relativePath : String) : String :=
  String.mk (stripSeps (stripDotDot (pathNormalize relativePath).data))

/-- PhotosConfigService.getPhotosBasePath: the `PHOTOS_BASE_PATH`
configuration value with default `/mnt/psd`. -/
def getPhotosBasePath (config : Option String) : String :=
  config.getD "/mnt/psd"

/-- PhotosConfigService.getFullPhotoPath: photos base path joined with the
sanitized relative path. -/
def getFullPhotoPath (config : Option String) (relativePath : String) : String :=
  pathJoin (getPhotosBasePath config) (sanitizePath relativePath)

/-- The `supportedImageExtensions` allow-list of PhotosConfigService. -/
def supportedImageExtensions : List String :=
  [".jpg", ".jpeg", ".png", ".tiff", ".tif", ".webp", ".bmp"]

/-- PhotosConfigService.isValidImageFile: the lower-cased extension is in
the allow-list. -/
def isValidImageFile (filename : String) : Bool :=
  supportedImageExtensions.contains (toLowerStr (extname filename))

/-! ### FileProcessingService (file-processing.service.ts)

The filesystem that `processDirectory` consults is passed explicitly: an
existence/readability check for directories (`checkDirectoryExists`) and a
directory listing (`fs.promises.readdir`).
-/

/-- The filesystem view consumed by FileProcessingService. -/
structure PhotoFs where
  dirExists : String → Bool
  readdir : String → List String

/-- An entry added to the ZIP archive: the source file path and the
archive-internal name passed to `zipArchiver.file`. -/
structure ZipEntry where
  src : String
  name : String
deriving DecidableEq, Repr

/-- FileProcessingService.addSingleFileToArchive computes the
archive-internal path from only the last directory name:
`path.join(path.basename(relativeDirPath), fileName)`. -/
def zipEntryPath (relativeDirPath fileName : String) : String :=
  pathJoin (basename relativeDirPath) fileName

/-- FileProcessingService.processDirectory: resolve the directory, skip it
(recording the skip, as the `Directory not found` warning does) when it
does not exist, otherwise add every image file of its listing to the
archive.  Returns the added entries and the recorded skips. -/
def processDirectory (fs : PhotoFs) (config : Option String) (dirPath : String) :
    List ZipEntry × List String :=
  let fullPath := getFullPhotoPath config dirPath
  if fs.dirExists fullPath then
    let imageFiles := (fs.readdir fullPath).filter isValidImageFile
    (imageFiles.map (fun f => ⟨pathJoin fullPath f, zipEntryPath dirPath f⟩), [])
  else
    ([], [dirPath])

/-- FileProcessingService.processDirectories: process every directory,
collecting entries and skips; one missing directory never aborts the
others. -/
def processDirectories (fs : PhotoFs) (config : Option String) :
    List String → List ZipEntry × List String
  | [] => ([], [])
  | d :: rest =>
    let r := processDirectory fs config d
    let rs := processDirectories fs config rest
    (r.1 ++ rs.1, r.2 ++ rs.2)

/-! ### SHA-256 (FIPS 180-4)

SimpleCacheService.generateCacheKey hashes the joined directory list with
Node's `crypto.createHash('sha256')`.  The hash is embedded here over
byte lists, with 32-bit words as `Nat` reduced mod `2 ^ 32`.
-/

/-- UTF-8 encoding of one unicode scalar value, as `hash.update` applies
to a JavaScript string. -/
def utf8Char (c : Char) : List Nat :=
  let n := c.toNat
  if n < 128 then [n]
  else if n < 2048 then [192 + n / 64, 128 + n % 64]
  else if n < 65536 then [224 + n / 4096, 128 + n / 64 % 64, 128 + n % 64]
  else [240 + n / 262144, 128 + n / 4096 % 64, 128 + n / 64 % 64, 128 + n % 64]

/-- UTF-8 encode a string to bytes. -/
def utf8Encode (s : String) : List Nat :=
  s.data.flatMap utf8Char

/-- Truncated addition of 32-bit words. -/
def add32 (a b : Nat) : Nat := (a + b) % 4294967296

/-- Rotate a 32-bit word right by `n` bits. -/
def rotr32 (n x : Nat) : Nat := x / 2 ^ n + x % 2 ^ n * 2 ^ (32 - n)

/-- Logical right shift of a 32-bit word. -/
def shr32 (n x : Nat) : Nat := x / 2 ^ n

/-- SHA-256 round constants (decimal), the first 32 bits of the
fractional parts of the cube roots of the first 64 primes. -/
def sha256K : List Nat :=
  [1116352408, 1899447441, 3049323471, 3921009573, 961987163,
   1508970993, 2453635748, 2870763221, 3624381080, 310598401,
   607225278, 1426881987, 1925078388, 2162078206, 2614888103,
   3248222580, 3835390401, 4022224774, 264347078, 604807628,
   770255983, 1249150122, 1555081692, 1996064986, 2554220882,
   2821834349, 2952996808, 3210313671, 3336571891, 3584528711,
   113926993, 338241895, 666307205, 773529912, 1294757372,
   1396182291, 1695183700, 1986661051, 2177026350, 2456956037,
   2730485921, 2820302411, 3259730800, 3345764771, 3516065817,
   3600352804, 4094571909, 275423344, 430227734, 506948616,
   659060556, 883997877, 958139571, 1322822218, 1537002063,
   1747873779, 1955562222, 2024104815, 2227730452, 2361852424,
   2428436474, 2756734187, 3204031479, 3329325298]

/-- SHA-256 initial hash value (decimal). -/
def sha256H0 : List Nat :=
  [1779033703, 3144134277, 1013904242, 2773480762,
   1359893119, 2600822924, 528734635, 1541459225]

/-- Big-endian bytes of a number, fixed width. -/
def toBytesBE (count n : Nat) : List Nat :=
  (List.range count).map (fun i => n / 2 ^ (8 * (count - 1 - i)) % 256)

/-- SHA-256 message padding: append `0x80`, zeros to 56 mod 64, then the
bit length as 8 big-endian bytes. -/
def sha256Pad (msg : List Nat) : List Nat :=
  let zeros := (64 + 56 - (msg.length + 1) % 64) % 64
  msg ++ 128 :: List.replicate zeros 0 ++ toBytesBE 8 (8 * msg.length)

/-- Combine bytes into big-endian 32-bit words. -/
def bytesToWords : List Nat → List Nat
  | b0 :: b1 :: b2 :: b3 :: rest =>
    (b0 * 16777216 + b1 * 65536 + b2 * 256 + b3) :: bytesToWords rest
  | _ => []

/-- Split a word list into 16-word blocks (fuel-driven so that the kernel
can evaluate it). -/
def chunk16 (fuel : Nat) (ws : List Nat) : List (List Nat) :=
  match fuel, ws with
  | 0, _ => []
  | _, [] => []
  | f + 1, ws => ws.take 16 :: chunk16 f (ws.drop 16)

/-- Message-schedule extension: grow the 16 block words to 64. -/
def sha256Extend (fuel : Nat) (ws : List Nat) : List Nat :=
  match fuel with
  | 0 => ws
  | f + 1 =>
    let n := ws.length
    let s0 := fun x => Nat.xor (Nat.xor (rotr32 7 x) (rotr32 18 x)) (shr32 3 x)
    let s1 := fun x => Nat.xor (Nat.xor (rotr32 17 x) (rotr32 19 x)) (shr32 10 x)
    let w := add32 (add32 (s1 (ws.getD (n - 2) 0)) (ws.getD (n - 7) 0))
      (add32 (s0 (ws.getD (n - 15) 0)) (ws.getD (n - 16) 0))
    sha256Extend f (ws ++ [w])

/-- Working state of the compression function. -/
structure Sha256State where
  a : Nat
  b : Nat
  c : Nat
  d : Nat
  e : Nat
  f : Nat
  g : Nat
  h : Nat

/-- One compression round. -/
def sha256Round (st : Sha256State) (kw : Nat × Nat) : Sha256State :=
  let S1 := Nat.xor (Nat.xor (rotr32 6 st.e) (rotr32 11 st.e)) (rotr32 25 st.e)
  let ch := Nat.xor (Nat.land st.e st.f) (Nat.land (Nat.xor st.e 4294967295) st.g)
  let t1 := add32 (add32 (add32 st.h S1) (add32 ch kw.1)) kw.2
  let S0 := Nat.xor (Nat.xor (rotr32 2 st.a) (rotr32 13 st.a)) (rotr32 22 st.a)
  let mj := Nat.xor (Nat.xor (Nat.land st.a st.b) (Nat.land st.a st.c)) (Nat.land st.b st.c)
  let t2 := add32 S0 mj
  ⟨add32 t1 t2, st.a, st.b, st.c, add32 st.d t1, st.e, st.f, st.g⟩

/-- Compress one 16-word block into the running hash. -/
def sha256Compress (H : List Nat) (block : List Nat) : List Nat :=
  let w := sha256Extend 48 block
  let init : Sha256State :=
    ⟨H.getD 0 0, H.getD 1 0, H.getD 2 0, H.getD 3 0,
     H.getD 4 0, H.getD 5 0, H.getD 6 0, H.getD 7 0⟩
  let st := (sha256K.zip w).foldl (fun s kw => sha256Round s (kw.1, kw.2)) init
  [add32 (H.getD 0 0) st.a, add32 (H.getD 1 0) st.b, add32 (H.getD 2 0) st.c,
   add32 (H.getD 3 0) st.d, add32 (H.getD 4 0) st.e, add32 (H.getD 5 0) st.f,
   add32 (H.getD 6 0) st.g, add32 (H.getD 7 0) st.h]

/-- SHA-256 digest of a byte list, as eight 32-bit words. -/
def sha256 (msg : List Nat) : List Nat :=
  let ws := bytesToWords (sha256Pad msg)
  (chunk16 ws.length ws).foldl sha256Compress sha256H0

/-- Hexadecimal digit. -/
def hexDigit (n : Nat) : Char :=
  if n < 10 then Char.ofNat (48 + n) else Char.ofNat (87 + n)

/-- Lower-case hexadecimal rendering of one 32-bit word. -/
def wordToHex (w : Nat) : List Char :=
  (List.range 8).map (fun i => hexDigit (w / 2 ^ (4 * (7 - i)) % 16))

/-- The 64-character hex digest, as `digest('hex')` returns it. -/
def sha256Hex (msg : List Nat) : String :=
  String.mk ((sha256 msg).flatMap wordToHex)

/-! ### SimpleCacheService (simple-cache.service.ts) -/

/-- Lexicographic strict comparison of character lists by code point,
modelling how JavaScript `Array.prototype.sort()`'s default comparator
orders strings (code-unit by code-unit). -/
def charListLt : List Char → List Char → Bool
  | [], [] => false
  | [], _ :: _ => true
  | _ :: _, [] => false
  | a :: as, b :: bs =>
    if a.toNat < b.toNat then true
    else if b.toNat < a.toNat then false
    else charListLt as bs

/-- The weak string order `a ≤ b` induced by `charListLt`, used to sort
the directory paths. -/
def jsStrLe (a b : String) : Prop := charListLt b.data a.data = false

instance : DecidableRel jsStrLe := fun a b =>
  inferInstanceAs (Decidable (charListLt b.data a.data = false))

/-- SimpleCacheService.generateCacheKey: SHA-256 of the sorted,
`|`-joined directory paths, truncated to 16 hex characters.  Note the
code copies and sorts but does not deduplicate. -/
def generateCacheKey (directoryPaths : List String) : String :=
  let sorted := List.insertionSort jsStrLe directoryPaths
  let combined := String.intercalate "|" sorted
  String.mk ((sha256Hex (utf8Encode combined)).data.take 16)

/-- SimpleCacheService.getZipPath: cache directory, key and `.zip`. -/
def getZipPath (directoryPaths : List String) : String :=
  pathJoin "/tmp/photo-cache" (generateCacheKey directoryPaths ++ ".zip")

/-- One cache-directory file as `getCacheFileInfos` stats it.  Sizes and
modification times are JavaScript numbers, modelled as integers. -/
structure CacheFileInfo where
  name : String
  size : Int
  mtime : Int
deriving DecidableEq, Repr

/-- Total byte size of a list of cache files. -/
def totalSize (l : List CacheFileInfo) : Int :=
  (l.map (·.size)).sum

/-- SimpleCacheService.bytesToMB: `Math.round((bytes / 1024 / 1024) * 100)
/ 100`, i.e. megabytes rounded to 2 decimals.  To stay in integers the
value is kept scaled by 100 (centi-MB): JavaScript `Math.round x` is
`⌊x + 1/2⌋`, here `Int.fdiv` on the scaled value, and every comparison
against an MB threshold uses the threshold scaled by 100 as well. -/
def bytesToCentiMB (bytes : Int) : Int :=
  Int.fdiv (bytes * 200 + 1048576) 2097152

/-- The `maxCacheSizeMB` configuration constant (5 GB), scaled by 100
like `bytesToCentiMB`. -/
def maxCacheSizeCentiMB : Int := 500000

/-- SimpleCacheService.getZipFiles: the cache-directory listing filtered
to names ending in `.zip`. -/
def getZipFiles (names : List String) : List String :=
  names.filter (fun f => jsEndsWith f ".zip")

/-- The cache-directory listing filtered to `.zip` files, as
`getCacheFileInfos` produces it from `getZipFiles`. -/
def zipInfos (listing : List CacheFileInfo) : List CacheFileInfo :=
  listing.filter (fun f => jsEndsWith f.name ".zip")

/-- The ascending-`mtime` comparator `(a, b) => a.mtime - b.mtime` of
`enforceMaxCacheSize`. -/
def mtimeLe (a b : CacheFileInfo) : Prop := a.mtime ≤ b.mtime

instance : DecidableRel mtimeLe := fun a b => Int.decLe a.mtime b.mtime

instance : IsTotal CacheFileInfo mtimeLe := ⟨fun a b => Int.le_total a.mtime b.mtime⟩

instance : IsTrans CacheFileInfo mtimeLe := ⟨fun _ _ _ h1 h2 => le_trans h1 h2⟩

/-- The `fileInfos.sort((a, b) => a.mtime - b.mtime)` step: stable sort by
ascending modification time. -/
def sortByMtime (l : List CacheFileInfo) : List CacheFileInfo :=
  List.insertionSort mtimeLe l

/-- The deletion loop of `enforceMaxCacheSize`: delete files in the given
order, subtracting each size from the running total, and break as soon as
the remaining size in MB is at or below the limit. -/
def evictLoop : Int → List CacheFileInfo → List CacheFileInfo
  | _, [] => []
  | remaining, f :: rest =>
    let r := remaining - f.size
    if bytesToCentiMB r ≤ maxCacheSizeCentiMB then [f]
    else f :: evictLoop r rest

/-- SimpleCacheService.enforceMaxCacheSize, as the list of files it
deletes: nothing when the total `.zip` size is within the limit,
otherwise the oldest-first deletion loop. -/
def enforceMaxCacheSize (listing : List CacheFileInfo) : List CacheFileInfo :=
  let infos := zipInfos listing
  if bytesToCentiMB (totalSize infos) ≤ maxCacheSizeCentiMB then []
  else evictLoop (totalSize infos) (sortByMtime infos)

/-- Result record of the flush operations; the reclaimed size is in
centi-MB like `bytesToCentiMB`. -/
structure CacheFlushResult where
  deletedFiles : Nat
  totalSizeCentiMB : Int
deriving DecidableEq, Repr

/-- The set of files SimpleCacheService.flushCacheOlderThan deletes: the
`.zip` files whose modification time is strictly before
`Date.now() - ageInMs`. -/
def flushDeleted (now ageInMs : Int) (listing : List CacheFileInfo) : List CacheFileInfo :=
  (zipInfos listing).filter (fun f => f.mtime < now - ageInMs)

/-- SimpleCacheService.flushCacheOlderThan, as the summary it returns. -/
def flushCacheOlderThan (now ageInMs : Int) (listing : List CacheFileInfo) :
    CacheFlushResult :=
  let deleted := flushDeleted now ageInMs listing
  ⟨deleted.length, bytesToCentiMB (totalSize deleted)⟩

/-- The set of files SimpleCacheService.flushAllCache deletes: every
`.zip` file of the cache directory. -/
def flushAllDeleted (listing : List CacheFileInfo) : List CacheFileInfo :=
  zipInfos listing

/-- SimpleCacheService.flushAllCache, as the summary it returns. -/
def flushAllCache (listing : List CacheFileInfo) : CacheFlushResult :=
  ⟨(flushAllDeleted listing).length, bytesToCentiMB (totalSize (flushAllDeleted listing))⟩

/-- The file-count and total-byte figures of
SimpleCacheService.getCacheStats, computed over `getZipFiles`. -/
def getCacheStatsCounts (listing : List CacheFileInfo) : Nat × Int :=
  ((zipInfos listing).length, totalSize (zipInfos listing))

/-! ### SimpleCacheService.getCachedZip

The lookup consults the memory cache (`cacheManager.get`), re-checks that
the cached path still exists, deletes the stale entry otherwise, and
falls back to a filesystem existence check of the key's zip path; when
the memory cache errors it uses the filesystem check alone.  The
function returns the served path together with the memory-cache entry
after the call. -/
def getCachedZip (cacheError : Bool) (cached : Option String)
    (fileExists : String → Bool) (zipPath : String) :
    Option String × Option String :=
  if cacheError then
    if fileExists zipPath then (some zipPath, cached) else (none, cached)
  else
    match cached with
    | some p =>
      if fileExists p then (some p, some p)
      else if fileExists zipPath then (some zipPath, some zipPath)
      else (none, none)
    | none =>
      if fileExists zipPath then (some zipPath, some zipPath) else (none, none)

/-! ### The ZIP generation protocol (SimpleCacheService.generateZipFile)

`generateZipFile` streams the archive into `<key>.zip.tmp` and calls
`fs.promises.rename` inside the write stream's `finish` handler.  The
rename is unconditional: the handler does not re-check the temp file's
state.  Since `preGenerateZips` runs on a plain 30-second cron with no
overlap suppression and no per-key lock, a second run can open its own
write stream on the same `<key>.zip.tmp` (`fs.createWriteStream`
truncates it) while the first run is still writing.  The model therefore
has two generator runs that may interleave freely, and tracks which run
last truncated the temp file. -/

/-- Completion state of an artifact file on disk. -/
inductive ArtifactState where
  | inProgress
  | complete
deriving DecidableEq, Repr

/-- Identity of a generateZipFile run racing on one key; the model uses
two runs, `false` and `true`. -/
abbrev GenId := Bool

/-- Where one generateZipFile run stands: not started, streaming into
the temp file, stream finished (rename pending in the finish handler),
or over (renamed or errored out). -/
inductive GenPhase where
  | idle
  | writing
  | finished
  | done
deriving DecidableEq, Repr

/-- Per-key view of the cache directory and of the two (possibly
overlapping) generateZipFile runs for that key: the `<key>.zip.tmp`
content state, the published `<key>.zip`, each run's phase, and which
run last truncated the temp file. -/
structure KeyGenState where
  tmp : Option ArtifactState
  zip : Option ArtifactState
  phaseA : GenPhase
  phaseB : GenPhase
  owner : Option GenId
deriving DecidableEq, Repr

/-- Phase of run `g`. -/
def phase (s : KeyGenState) (g : GenId) : GenPhase :=
  if g then s.phaseB else s.phaseA

/-- Replace the phase of run `g`. -/
def setPhase (s : KeyGenState) (g : GenId) (p : GenPhase) : KeyGenState :=
  if g then { s with phaseB := p } else { s with phaseA := p }

/-- State after run `g` opens its write stream on `<key>.zip.tmp`
(`fs.createWriteStream` truncates the file and makes `g` its writer). -/
def startState (s : KeyGenState) (g : GenId) : KeyGenState :=
  { setPhase s g GenPhase.writing with
    tmp := some ArtifactState.inProgress, owner := some g }

/-- State after run `g`'s archive stream has flushed all its bytes: the
temp file is complete only if no other run truncated it since `g`
started. -/
def finishState (s : KeyGenState) (g : GenId) : KeyGenState :=
  { setPhase s g GenPhase.finished with
    tmp := if s.owner = some g then some ArtifactState.complete else s.tmp }

/-- State after run `g`'s finish handler performed its unconditional
`fs.promises.rename`: the current temp file, whatever its state, becomes
`<key>.zip` (when the temp file is already gone the rename fails into
the promise rejection and publishes nothing). -/
def renameState (s : KeyGenState) (g : GenId) : KeyGenState :=
  { setPhase s g GenPhase.done with
    zip := if s.tmp = none then s.zip else s.tmp, tmp := none, owner := none }

/-- Steps of `generateZipFile` as the code performs them: `start` opens
the write stream on the temp file, `finishStream` fires when the run's
stream has written everything, `rename` is the finish handler's
unconditional rename, `fail` is a stream error before `finish` (no
rename), and `evict` is an `unlink` of the published zip by eviction or
flush. -/
inductive KeyGenStep : KeyGenState → KeyGenState → Prop where
  | start (s : KeyGenState) (g : GenId) (h : phase s g = GenPhase.idle) :
      KeyGenStep s (startState s g)
  | finishStream (s : KeyGenState) (g : GenId) (h : phase s g = GenPhase.writing) :
      KeyGenStep s (finishState s g)
  | rename (s : KeyGenState) (g : GenId) (h : phase s g = GenPhase.finished) :
      KeyGenStep s (renameState s g)
  | fail (s : KeyGenState) (g : GenId) (h : phase s g = GenPhase.writing) :
      KeyGenStep s (setPhase s g GenPhase.done)
  | evict (s : KeyGenState) : KeyGenStep s { s with zip := none }

/-- The cache directory starts without the key's files and with no run
in flight. -/
def initKeyGen : KeyGenState :=
  ⟨none, none, GenPhase.idle, GenPhase.idle, none⟩

/-- States the racing generations can reach. -/
def ReachableKeyGen (s : KeyGenState) : Prop :=
  Relation.ReflTransGen KeyGenStep initKeyGen s

/-- A run is in flight between its `start` and its `rename` or `fail`. -/
def activeGen (s : KeyGenState) (g : GenId) : Prop :=
  phase s g = GenPhase.writing ∨ phase s g = GenPhase.finished

/-- The same steps restricted to non-overlapping generations: a run may
start only while no other run for the key is in flight.  This is the
scheduling the code relies on but does not enforce. -/
inductive KeyGenSoloStep : KeyGenState → KeyGenState → Prop where
  | start (s : KeyGenState) (g : GenId) (h : phase s g = GenPhase.idle)
      (hsolo : ¬ activeGen s (!g)) :
      KeyGenSoloStep s (startState s g)
  | finishStream (s : KeyGenState) (g : GenId) (h : phase s g = GenPhase.writing) :
      KeyGenSoloStep s (finishState s g)
  | rename (s : KeyGenState) (g : GenId) (h : phase s g = GenPhase.finished) :
      KeyGenSoloStep s (renameState s g)
  | fail (s : KeyGenState) (g : GenId) (h : phase s g = GenPhase.writing) :
      KeyGenSoloStep s (setPhase s g GenPhase.done)
  | evict (s : KeyGenState) : KeyGenSoloStep s { s with zip := none }

/-- States reachable when generations never overlap. -/
def ReachableKeyGenSolo (s : KeyGenState) : Prop :=
  Relation.ReflTransGen KeyGenSoloStep initKeyGen s

/-- What a lookup can observe for the key: the artifact backing
`<key>.zip` exactly when that file exists (`fileExists`), `none`
otherwise. -/
def lookupArtifact (s : KeyGenState) : Option ArtifactState := s.zip

/-- Inductive invariant of the non-overlapping system: the published zip
is complete, the writing run owns the temp file, a finished run left a
complete temp file, and at most one run is in flight. -/
def KeyGenInv (s : KeyGenState) : Prop :=
  (∀ a, s.zip = some a → a = ArtifactState.complete) ∧
  (∀ g, phase s g = GenPhase.writing → s.owner = some g) ∧
  (∀ g, phase s g = GenPhase.finished → s.tmp = some ArtifactState.complete) ∧
  (∀ g g', activeGen s g → activeGen s g' → g = g')

/-! ### TransferController.download (transfer.controller.ts)

On a request the controller asks `getCachedZip`; a non-null answer is
streamed from the cache, a null answer starts a real-time
`processDirectoriesAsync` streamed to that requester alone.  The download
path never writes to the cache directory, so concurrent requests do not
affect each other's lookup; cached archives are produced only by the
`preGenerateZips` cron. -/

/-- How a download request is served. -/
inductive DownloadServe where
  | cachedFile
  | realtime
  | errorResponse
deriving DecidableEq, Repr

/-- One download request: the way it is served together with the number
of archive assemblies (`processDirectoriesAsync` invocations) it
starts. -/
def downloadRequest (cachedZip : Option String) : DownloadServe × Nat :=
  match cachedZip with
  | some _ => (DownloadServe.cachedFile, 0)
  | none => (DownloadServe.realtime, 1)

/-- N concurrent download requests against the same cache state: each
performs its own lookup and is served independently (the download path
mutates no shared cache state). -/
def concurrentDownloads (cachedZip : Option String) (n : Nat) :
    List (DownloadServe × Nat) :=
  List.replicate n (downloadRequest cachedZip)

/-- Total number of archive assemblies a list of requests starts. -/
def assemblerInvocations (rs : List (DownloadServe × Nat)) : Nat :=
  (rs.map (·.2)).sum

/-- SimpleCacheService.preGenerateZips, per order: skip when the key's
zip already exists, otherwise run one `generateZipFile` assembly. -/
def preGenerateOrder (zipExists : Bool) : Nat :=
  if zipExists then 0 else 1

/-! ### Helper lemmas -/

@[simp] lemma totalSize_nil : totalSize [] = 0 := rfl

@[simp] lemma totalSize_cons (f : CacheFileInfo) (l : List CacheFileInfo) :
    totalSize (f :: l) = f.size + totalSize l := by
  simp [totalSize]

lemma zip_tmp_not_zip (s : String) (h : jsEndsWith s ".zip.tmp" = true) :
    jsEndsWith s ".zip" = false := by
  unfold jsEndsWith at h ⊢
  rw [List.isSuffixOf_iff_suffix] at h
  by_contra hb
  rw [Bool.not_eq_false, List.isSuffixOf_iff_suffix] at hb
  obtain ⟨a, ha⟩ := h
  obtain ⟨b, hbb⟩ := hb
  have hdata : ".zip.tmp".data = ['.', 'z', 'i', 'p', '.', 't', 'm', 'p'] := rfl
  have hdata2 : ".zip".data = ['.', 'z', 'i', 'p'] := rfl
  rw [hdata] at ha
  rw [hdata2] at hbb
  have hsplit : (a ++ ['.', 'z', 'i', 'p']) ++ ['.', 't', 'm', 'p'] = b ++ ['.', 'z', 'i', 'p'] := by
    rw [hbb, ← ha]; simp
  have hlen : (a ++ ['.', 'z', 'i', 'p']).length = b.length := by
    have := congrArg List.length hsplit
    simp at this
    simp
    omega
  have := List.append_inj_right hsplit hlen
  simp at this

lemma evictLoop_mem {remaining : Int} {l : List CacheFileInfo} :
    ∀ f ∈ evictLoop remaining l, f ∈ l := by
  induction l generalizing remaining with
  | nil => simp [evictLoop]
  | cons g rest ih =>
    intro f hf
    simp only [evictLoop] at hf
    by_cases hc : bytesToCentiMB (remaining - g.size) ≤ maxCacheSizeCentiMB
    · simp [hc] at hf
      simp [hf]
    · simp [hc] at hf
      rcases hf with hf | hf
      · simp [hf]
      · exact List.mem_cons_of_mem _ (ih f hf)

lemma evictLoop_spec (remaining : Int) (l : List CacheFileInfo)
    (hover : ¬ bytesToCentiMB remaining ≤ maxCacheSizeCentiMB) :
    (∃ rest, l = evictLoop remaining l ++ rest) ∧
    (bytesToCentiMB (remaining - totalSize (evictLoop remaining l)) ≤ maxCacheSizeCentiMB ∨
      evictLoop remaining l = l) ∧
    (∀ k, k < (evictLoop remaining l).length →
      ¬ bytesToCentiMB (remaining - totalSize ((evictLoop remaining l).take k)) ≤
        maxCacheSizeCentiMB) := by
  induction l generalizing remaining with
  | nil =>
    refine ⟨⟨[], by simp [evictLoop]⟩, Or.inr rfl, ?_⟩
    simp [evictLoop]
  | cons f rest ih =>
    by_cases hc : bytesToCentiMB (remaining - f.size) ≤ maxCacheSizeCentiMB
    · refine ⟨⟨rest, by simp [evictLoop, hc]⟩, ?_, ?_⟩
      · left
        simp only [evictLoop, hc, if_true, totalSize_cons, totalSize_nil]
        have : remaining - (f.size + 0) = remaining - f.size := by ring
        rw [this]
        exact hc
      · intro k hk
        simp only [evictLoop, hc, if_true, List.length_cons, List.length_nil] at hk
        have hk0 : k = 0 := by omega
        subst hk0
        simpa using hover
    · have ih' := ih (remaining - f.size) hc
      refine ⟨?_, ?_, ?_⟩
      · obtain ⟨r2, hr2⟩ := ih'.1
        refine ⟨r2, ?_⟩
        simp only [evictLoop, hc, if_false]
        simpa using hr2
      · rcases ih'.2.1 with h | h
        · left
          simp only [evictLoop, hc, if_false, totalSize_cons]
          have : remaining - (f.size + totalSize (evictLoop (remaining - f.size) rest)) =
              remaining - f.size - totalSize (evictLoop (remaining - f.size) rest) := by ring
          rw [this]
          exact h
        · right
          simp [evictLoop, hc, h]
      · intro k hk
        simp only [evictLoop, hc, if_false] at hk ⊢
        cases k with
        | zero => simpa using hover
        | succ k' =>
          simp only [List.length_cons, Nat.succ_lt_succ_iff] at hk
          have hmin := ih'.2.2 k' hk
          simp only [List.take_succ_cons, totalSize_cons]
          have : remaining - (f.size + totalSize ((evictLoop (remaining - f.size) rest).take k')) =
              remaining - f.size - totalSize ((evictLoop (remaining - f.size) rest).take k') := by
            ring
          rw [this]
          exact hmin

/-! ### Claim C5 -/

/-- C5: for every duration `d`, `flushCacheOlderThan d` deletes exactly
those cached `.zip` artifacts whose age (current time minus modification
time) is strictly greater than `d`, deletes none whose age is at most
`d`, and reports the number of deleted files and the reclaimed size. -/
theorem flushCacheOlderThan_spec (now ageInMs : Int) (listing : List CacheFileInfo) :
    (∀ f ∈ zipInfos listing,
      (f ∈ flushDeleted now ageInMs listing ↔ now - f.mtime > ageInMs)) ∧
    (∀ f ∈ flushDeleted now ageInMs listing,
      f ∈ zipInfos listing ∧ now - f.mtime > ageInMs) ∧
    (flushCacheOlderThan now ageInMs listing).deletedFiles =
      (flushDeleted now ageInMs listing).length ∧
    (flushCacheOlderThan now ageInMs listing).totalSizeCentiMB =
      bytesToCentiMB (totalSize (flushDeleted now ageInMs listing)) := by
  refine ⟨?_, ?_, rfl, rfl⟩
  · intro f hf
    simp only [flushDeleted, List.mem_filter, decide_eq_true_eq]
    constructor
    · rintro ⟨-, hlt⟩
      omega
    · intro hgt
      exact ⟨hf, by omega⟩
  · intro f hf
    simp only [flushDeleted, List.mem_filter, decide_eq_true_eq] at hf
    exact ⟨hf.1, by omega⟩

/-- Witness for C5 at a concrete cache state: with `now = 200` and
`d = 50`, the zip file modified at time 0 (age 200) is deleted while the
one modified at time 180 (age 20) is kept. -/
theorem flushCacheOlderThan_spec_witness :
    (⟨"a.zip", 10, 0⟩ : CacheFileInfo) ∈
      flushDeleted 200 50 [⟨"a.zip", 10, 0⟩, ⟨"b.zip", 10, 180⟩] ∧
    (⟨"b.zip", 10, 180⟩ : CacheFileInfo) ∉
      flushDeleted 200 50 [⟨"a.zip", 10, 0⟩, ⟨"b.zip", 10, 180⟩] := by
  constructor
  · exact ((flushCacheOlderThan_spec 200 50 [⟨"a.zip", 10, 0⟩, ⟨"b.zip", 10, 180⟩]).1
      ⟨"a.zip", 10, 0⟩ (by decide)).mpr (by decide)
  · intro hmem
    have := ((flushCacheOlderThan_spec 200 50 [⟨"a.zip", 10, 0⟩, ⟨"b.zip", 10, 180⟩]).1
      ⟨"b.zip", 10, 180⟩ (by decide)).mp hmem
    exact absurd this (by decide)

/-! ### Claim C10 -/

/-- C10: every cache-management operation — size accounting and eviction,
age-based flush, full flush, and statistics — considers only files of the
cache directory whose name ends in `.zip`; any other file there, in
particular a `.zip.tmp` temporary, is never counted, never deleted and
never reported. -/
theorem cache_ops_only_zip_files (listing : List CacheFileInfo) (now ageInMs : Int) :
    (∀ f ∈ zipInfos listing, jsEndsWith f.name ".zip" = true) ∧
    (∀ f : CacheFileInfo, jsEndsWith f.name ".zip.tmp" = true →
      f ∉ zipInfos listing ∧
      f ∉ flushAllDeleted listing ∧
      f ∉ flushDeleted now ageInMs listing ∧
      f ∉ enforceMaxCacheSize listing) ∧
    flushAllDeleted listing = zipInfos listing ∧
    (∀ f ∈ flushDeleted now ageInMs listing, f ∈ zipInfos listing) ∧
    (∀ f ∈ enforceMaxCacheSize listing, f ∈ zipInfos listing) ∧
    getCacheStatsCounts listing = ((zipInfos listing).length, totalSize (zipInfos listing)) := by
  have hzip : ∀ f ∈ zipInfos listing, jsEndsWith f.name ".zip" = true := by
    intro f hf
    exact (List.mem_filter.mp hf).2
  have hflush : ∀ f ∈ flushDeleted now ageInMs listing, f ∈ zipInfos listing := by
    intro f hf
    exact (List.mem_filter.mp hf).1
  have henf : ∀ f ∈ enforceMaxCacheSize listing, f ∈ zipInfos listing := by
    intro f hf
    simp only [enforceMaxCacheSize] at hf
    by_cases hc : bytesToCentiMB (totalSize (zipInfos listing)) ≤ maxCacheSizeCentiMB
    · simp [hc] at hf
    · simp only [hc, if_false] at hf
      have := evictLoop_mem f hf
      exact ((List.perm_insertionSort mtimeLe (zipInfos listing)).mem_iff).mp this
  refine ⟨hzip, ?_, rfl, hflush, henf, rfl⟩
  intro f htmp
  have hnot : jsEndsWith f.name ".zip" = false := zip_tmp_not_zip f.name htmp
  have hnotzip : f ∉ zipInfos listing := by
    intro hf
    rw [hzip f hf] at hnot
    exact Bool.true_eq_false.mp hnot
  exact ⟨hnotzip, hnotzip, fun hf => hnotzip (hflush f hf), fun hf => hnotzip (henf f hf)⟩

/-- Witness for C10 at a concrete cache directory: an abandoned
`k.zip.tmp` temporary is excluded from the `.zip` listing and hence from
every flush and eviction set. -/
theorem cache_ops_only_zip_files_witness :
    (⟨"k.zip.tmp", 10, 0⟩ : CacheFileInfo) ∉
      zipInfos [⟨"k.zip", 10, 0⟩, ⟨"k.zip.tmp", 10, 0⟩] ∧
    (⟨"k.zip.tmp", 10, 0⟩ : CacheFileInfo) ∉
      flushAllDeleted [⟨"k.zip", 10, 0⟩, ⟨"k.zip.tmp", 10, 0⟩] := by
  have h := (cache_ops_only_zip_files [⟨"k.zip", 10, 0⟩, ⟨"k.zip.tmp", 10, 0⟩] 0 0).2.1
    ⟨"k.zip.tmp", 10, 0⟩ (by decide)
  exact ⟨h.1, h.2.1⟩

/-! ### Claim C4 -/

/-- C4: when size enforcement runs and the total size of the cached
`.zip` artifacts exceeds the configured ceiling (5000 MB, compared on the
code's own 2-decimal MB figure), artifacts are deleted in ascending
modification-time order — the deletion set is a prefix of the
mtime-sorted listing — and deletion stops as soon as the remaining total
is at or below the ceiling or no entries remain (every earlier stopping
point would still exceed the ceiling); when the total does not exceed
the ceiling, no artifact is deleted. -/
theorem enforceMaxCacheSize_spec (listing : List CacheFileInfo) :
    (bytesToCentiMB (totalSize (zipInfos listing)) ≤ maxCacheSizeCentiMB →
      enforceMaxCacheSize listing = []) ∧
    (¬ bytesToCentiMB (totalSize (zipInfos listing)) ≤ maxCacheSizeCentiMB →
      (∃ rest, sortByMtime (zipInfos listing) = enforceMaxCacheSize listing ++ rest) ∧
      List.Sorted mtimeLe (sortByMtime (zipInfos listing)) ∧
      (sortByMtime (zipInfos listing)).Perm (zipInfos listing) ∧
      (bytesToCentiMB (totalSize (zipInfos listing) -
          totalSize (enforceMaxCacheSize listing)) ≤ maxCacheSizeCentiMB ∨
        enforceMaxCacheSize listing = sortByMtime (zipInfos listing)) ∧
      (∀ k, k < (enforceMaxCacheSize listing).length →
        ¬ bytesToCentiMB (totalSize (zipInfos listing) -
            totalSize ((enforceMaxCacheSize listing).take k)) ≤ maxCacheSizeCentiMB)) := by
  constructor
  · intro h
    simp [enforceMaxCacheSize, h]
  · intro h
    have henf : enforceMaxCacheSize listing =
        evictLoop (totalSize (zipInfos listing)) (sortByMtime (zipInfos listing)) := by
      simp [enforceMaxCacheSize, h]
    have hspec := evictLoop_spec (totalSize (zipInfos listing))
      (sortByMtime (zipInfos listing)) h
    rw [henf]
    exact ⟨hspec.1, List.sorted_insertionSort mtimeLe (zipInfos listing),
      List.perm_insertionSort mtimeLe (zipInfos listing), hspec.2.1, hspec.2.2⟩

/-- Witness for C4 at a concrete over-limit cache: two 3 GB archives
(6 GB total) exceed the 5000 MB ceiling; after the eviction loop the
remaining size is back at or below the ceiling (or everything was
deleted). -/
theorem enforceMaxCacheSize_spec_witness :
    bytesToCentiMB (totalSize (zipInfos [⟨"o.zip", 3221225472, 1⟩, ⟨"n.zip", 3221225472, 2⟩]) -
        totalSize (enforceMaxCacheSize [⟨"o.zip", 3221225472, 1⟩, ⟨"n.zip", 3221225472, 2⟩])) ≤
      maxCacheSizeCentiMB ∨
    enforceMaxCacheSize [⟨"o.zip", 3221225472, 1⟩, ⟨"n.zip", 3221225472, 2⟩] =
      sortByMtime (zipInfos [⟨"o.zip", 3221225472, 1⟩, ⟨"n.zip", 3221225472, 2⟩]) :=
  ((enforceMaxCacheSize_spec [⟨"o.zip", 3221225472, 1⟩, ⟨"n.zip", 3221225472, 2⟩]).2
    (by decide)).2.2.2.1

/-! ### Claim C6 -/

/-- C6: every non-null result of `getCachedZip` refers to a file that
exists at the time of the check, and when the cached metadata points at a
backing file that no longer exists (and the key's zip path does not exist
either), the stale entry is discarded from the memory cache and the
lookup returns null. -/
theorem getCachedZip_spec (cacheError : Bool) (cached : Option String)
    (fileExists : String → Bool) (zipPath : String) :
    (∀ q, (getCachedZip cacheError cached fileExists zipPath).1 = some q →
      fileExists q = true) ∧
    (∀ p, cacheError = false → cached = some p → fileExists p = false →
      fileExists zipPath = false →
      (getCachedZip cacheError cached fileExists zipPath).1 = none ∧
      (getCachedZip cacheError cached fileExists zipPath).2 = none) := by
  constructor
  · intro q hq
    cases cacheError with
    | true =>
      cases hz : fileExists zipPath with
      | true =>
        simp only [getCachedZip, if_true, hz] at hq
        simp only [if_true, Option.some.injEq] at hq
        rw [← hq]
        exact hz
      | false => simp [getCachedZip, hz] at hq
    | false =>
      cases cached with
      | some p =>
        cases hp : fileExists p with
        | true =>
          simp only [getCachedZip, hp] at hq
          simp at hq
          rw [← hq]
          exact hp
        | false =>
          cases hz : fileExists zipPath with
          | true =>
            simp only [getCachedZip, hp, hz] at hq
            simp at hq
            rw [← hq]
            exact hz
          | false => simp [getCachedZip, hp, hz] at hq
      | none =>
        cases hz : fileExists zipPath with
        | true =>
          simp only [getCachedZip, hz] at hq
          simp at hq
          rw [← hq]
          exact hz
        | false => simp [getCachedZip, hz] at hq
  · intro p herr hc hp hz
    subst herr
    subst hc
    simp [getCachedZip, hp, hz]

/-- Witness for C6: a memory-cached path whose backing file vanished
(no file exists at all) yields a miss and clears the stale entry. -/
theorem getCachedZip_spec_witness :
    (getCachedZip false (some "/tmp/photo-cache/k.zip") (fun _ => false)
      "/tmp/photo-cache/k.zip").1 = none ∧
    (getCachedZip false (some "/tmp/photo-cache/k.zip") (fun _ => false)
      "/tmp/photo-cache/k.zip").2 = none :=
  (getCachedZip_spec false (some "/tmp/photo-cache/k.zip") (fun _ => false)
    "/tmp/photo-cache/k.zip").2 "/tmp/photo-cache/k.zip" rfl rfl rfl rfl

/-! ### Claim C2

The download path of TransferController holds no per-key generation lock:
a request that misses the cache always starts its own real-time assembly
and never stores it, so for N concurrent requests on the same uncached
key the code starts N assemblies, not exactly one.  The claim fails; what
does hold is that every such requester is served an independent real-time
stream (never an error caused by contention), and that a single cached
assembly per key is produced only by the pre-generation cron, which skips
keys whose artifact already exists. -/

/-- C2 counterexample: two concurrent download requests for the same
uncached key start two archive assemblies — not exactly one — and both
are served by independent real-time streams. -/
theorem concurrent_downloads_not_single_assembly :
    assemblerInvocations (concurrentDownloads none 2) = 2 ∧
    assemblerInvocations (concurrentDownloads none 2) ≠ 1 ∧
    concurrentDownloads none 2 =
      [(DownloadServe.realtime, 1), (DownloadServe.realtime, 1)] := by
  refine ⟨rfl, by decide, rfl⟩

/-- C2 (amended): for every N concurrent download requests for the same
uncached key, each request independently streams a real-time assembly (N
assembler invocations in total) and none receives an error caused by
contention; when the key's artifact exists every request is served the
cached artifact with zero assemblies; the pre-generation cron starts no
assembly for a key whose artifact exists. -/
theorem concurrent_downloads_realtime_fallback (n : Nat) (zipPath : String) :
    assemblerInvocations (concurrentDownloads none n) = n ∧
    (∀ r, r ∈ concurrentDownloads none n →
      r = (DownloadServe.realtime, 1) ∧ r.1 ≠ DownloadServe.errorResponse) ∧
    assemblerInvocations (concurrentDownloads (some zipPath) n) = 0 ∧
    (∀ r, r ∈ concurrentDownloads (some zipPath) n →
      r = (DownloadServe.cachedFile, 0) ∧ r.1 ≠ DownloadServe.errorResponse) ∧
    preGenerateOrder true = 0 := by
  refine ⟨?_, ?_, ?_, ?_, rfl⟩
  · simp [assemblerInvocations, concurrentDownloads, downloadRequest, List.map_replicate]
  · intro r hr
    have := List.eq_of_mem_replicate hr
    subst this
    exact ⟨rfl, by simp [downloadRequest]⟩
  · simp [assemblerInvocations, concurrentDownloads, downloadRequest, List.map_replicate]
  · intro r hr
    have := List.eq_of_mem_replicate hr
    subst this
    exact ⟨rfl, by simp [downloadRequest]⟩

/-- Witness for C2 (amended) at two concurrent requests for an uncached
key: two real-time assemblies, and the member request is a real-time
stream. -/
theorem concurrent_downloads_realtime_fallback_witness :
    assemblerInvocations (concurrentDownloads none 2) = 2 ∧
    (DownloadServe.realtime, 1) = (DownloadServe.realtime, 1) :=
  ⟨(concurrent_downloads_realtime_fallback 2 "/tmp/photo-cache/k.zip").1,
    ((concurrent_downloads_realtime_fallback 2 "/tmp/photo-cache/k.zip").2.1
      (DownloadServe.realtime, 1) (by decide)).1⟩

/-! ### Claim C3

The finish-handler rename of `generateZipFile` never re-checks the temp
file, and overlapping `preGenerateZips` cron ticks can re-truncate
`<key>.zip.tmp` mid-write, so a partially written `<key>.zip` is
publishable: the claimed invariant fails on the code.  It does hold when
generations for a key never overlap, which is proved below through an
inductive invariant of the restricted system.
-/

@[simp] lemma zip_setPhase (s : KeyGenState) (g : GenId) (p : GenPhase) :
    (setPhase s g p).zip = s.zip := by
  cases g <;> simp [setPhase]

@[simp] lemma tmp_setPhase (s : KeyGenState) (g : GenId) (p : GenPhase) :
    (setPhase s g p).tmp = s.tmp := by
  cases g <;> simp [setPhase]

@[simp] lemma owner_setPhase (s : KeyGenState) (g : GenId) (p : GenPhase) :
    (setPhase s g p).owner = s.owner := by
  cases g <;> simp [setPhase]

@[simp] lemma phase_setPhase_self (s : KeyGenState) (g : GenId) (p : GenPhase) :
    phase (setPhase s g p) g = p := by
  cases g <;> simp [phase, setPhase]

lemma phase_setPhase_ne (s : KeyGenState) {g g' : GenId} (p : GenPhase) (hne : g' ≠ g) :
    phase (setPhase s g p) g' = phase s g' := by
  cases g <;> cases g' <;> simp_all [phase, setPhase]

lemma genId_ne_iff {g g' : GenId} (hne : g' ≠ g) : g' = !g := by
  cases g <;> cases g' <;> simp_all

@[simp] lemma startState_zip (s : KeyGenState) (g : GenId) :
    (startState s g).zip = s.zip := by
  simp [startState]

@[simp] lemma startState_tmp (s : KeyGenState) (g : GenId) :
    (startState s g).tmp = some ArtifactState.inProgress := by
  simp [startState]

@[simp] lemma startState_owner (s : KeyGenState) (g : GenId) :
    (startState s g).owner = some g := by
  simp [startState]

lemma phase_startState_self (s : KeyGenState) (g : GenId) :
    phase (startState s g) g = GenPhase.writing := by
  cases g <;> simp [startState, setPhase, phase]

lemma phase_startState_ne (s : KeyGenState) {g g' : GenId} (hne : g' ≠ g) :
    phase (startState s g) g' = phase s g' := by
  cases g <;> cases g' <;> simp_all [startState, setPhase, phase]

@[simp] lemma finishState_zip (s : KeyGenState) (g : GenId) :
    (finishState s g).zip = s.zip := by
  simp [finishState]

@[simp] lemma finishState_tmp (s : KeyGenState) (g : GenId) :
    (finishState s g).tmp =
      if s.owner = some g then some ArtifactState.complete else s.tmp := by
  simp [finishState]

@[simp] lemma finishState_owner (s : KeyGenState) (g : GenId) :
    (finishState s g).owner = s.owner := by
  simp [finishState]

lemma phase_finishState_self (s : KeyGenState) (g : GenId) :
    phase (finishState s g) g = GenPhase.finished := by
  cases g <;> simp [finishState, setPhase, phase]

lemma phase_finishState_ne (s : KeyGenState) {g g' : GenId} (hne : g' ≠ g) :
    phase (finishState s g) g' = phase s g' := by
  cases g <;> cases g' <;> simp_all [finishState, setPhase, phase]

@[simp] lemma renameState_zip (s : KeyGenState) (g : GenId) :
    (renameState s g).zip = if s.tmp = none then s.zip else s.tmp := by
  simp [renameState]

@[simp] lemma renameState_tmp (s : KeyGenState) (g : GenId) :
    (renameState s g).tmp = none := by
  simp [renameState]

lemma phase_renameState_self (s : KeyGenState) (g : GenId) :
    phase (renameState s g) g = GenPhase.done := by
  cases g <;> simp [renameState, setPhase, phase]

lemma phase_renameState_ne (s : KeyGenState) {g g' : GenId} (hne : g' ≠ g) :
    phase (renameState s g) g' = phase s g' := by
  cases g <;> cases g' <;> simp_all [renameState, setPhase, phase]

@[simp] lemma zip_evict (s : KeyGenState) : ({ s with zip := none } : KeyGenState).zip = none :=
  rfl

lemma phase_evict (s : KeyGenState) (g : GenId) :
    phase ({ s with zip := none } : KeyGenState) g = phase s g := by
  cases g <;> simp [phase]

/-- C3 counterexample: the claimed invariant fails under the code's real
concurrency.  Run `false` starts a generation; an overlapping cron tick
makes run `true` re-truncate the same `<key>.zip.tmp`; run `false`'s
stream then finishes (the temp file holds run `true`'s partial data) and
its finish handler renames unconditionally — the reachable state
publishes `<key>.zip` in partial state, and the lookup returns the
partially written artifact. -/
theorem publish_partial_reachable :
    ReachableKeyGen
      ⟨none, some ArtifactState.inProgress, GenPhase.done, GenPhase.writing, none⟩ ∧
    lookupArtifact
      ⟨none, some ArtifactState.inProgress, GenPhase.done, GenPhase.writing, none⟩ =
      some ArtifactState.inProgress := by
  refine ⟨?_, rfl⟩
  exact Relation.ReflTransGen.head (KeyGenStep.start initKeyGen false rfl)
    (Relation.ReflTransGen.head
      (KeyGenStep.start ⟨some ArtifactState.inProgress, none, GenPhase.writing,
        GenPhase.idle, some false⟩ true rfl)
      (Relation.ReflTransGen.head
        (KeyGenStep.finishStream ⟨some ArtifactState.inProgress, none, GenPhase.writing,
          GenPhase.writing, some true⟩ false rfl)
        (Relation.ReflTransGen.single
          (KeyGenStep.rename ⟨some ArtifactState.inProgress, none, GenPhase.finished,
            GenPhase.writing, some true⟩ false rfl))))

lemma soloStep_step {s t : KeyGenState} (h : KeyGenSoloStep s t) : KeyGenStep s t := by
  cases h with
  | start g hp hsolo => exact KeyGenStep.start _ g hp
  | finishStream g hp => exact KeyGenStep.finishStream _ g hp
  | rename g hp => exact KeyGenStep.rename _ g hp
  | fail g hp => exact KeyGenStep.fail _ g hp
  | evict => exact KeyGenStep.evict _

lemma keyGenInv_init : KeyGenInv initKeyGen := by
  refine ⟨?_, ?_, ?_, ?_⟩
  · intro a ha
    cases ha
  · intro g hg
    cases g <;> cases hg
  · intro g hg
    cases g <;> cases hg
  · intro g g' hg _
    rcases hg with hg | hg <;> cases g <;> cases hg

lemma keyGenInv_preserved {s t : KeyGenState} (hst : KeyGenSoloStep s t)
    (hinv : KeyGenInv s) : KeyGenInv t := by
  obtain ⟨hzip, hwri, hfin, hone⟩ := hinv
  cases hst with
  | start g h hsolo =>
    have key : ∀ x, activeGen (startState s g) x → x = g := by
      intro x hx
      by_cases hgg : x = g
      · exact hgg
      · have hax : activeGen s x := by
          rcases hx with hx | hx
          · exact Or.inl (by rwa [phase_startState_ne s hgg] at hx)
          · exact Or.inr (by rwa [phase_startState_ne s hgg] at hx)
        exact absurd ((genId_ne_iff hgg) ▸ hax) hsolo
    refine ⟨?_, ?_, ?_, ?_⟩
    · intro a ha
      rw [startState_zip] at ha
      exact hzip a ha
    · intro g' hp
      rw [key g' (Or.inl hp), startState_owner]
    · intro g' hp
      have := key g' (Or.inr hp)
      subst this
      rw [phase_startState_self] at hp
      cases hp
    · intro g1 g2 h1 h2
      rw [key g1 h1, key g2 h2]
  | finishStream g h =>
    have howner : s.owner = some g := hwri g h
    have hback : ∀ x, activeGen (finishState s g) x → activeGen s x := by
      intro x hx
      by_cases hgg : x = g
      · subst hgg
        exact Or.inl h
      · rcases hx with hx | hx
        · exact Or.inl (by rwa [phase_finishState_ne s hgg] at hx)
        · exact Or.inr (by rwa [phase_finishState_ne s hgg] at hx)
    refine ⟨?_, ?_, ?_, ?_⟩
    · intro a ha
      rw [finishState_zip] at ha
      exact hzip a ha
    · intro g' hp
      by_cases hgg : g' = g
      · subst hgg
        rw [phase_finishState_self] at hp
        cases hp
      · rw [phase_finishState_ne s hgg] at hp
        exact absurd (hone g' g (Or.inl hp) (Or.inl h)) hgg
    · intro g' _
      rw [finishState_tmp, if_pos howner]
    · intro g1 g2 h1 h2
      exact hone g1 g2 (hback g1 h1) (hback g2 h2)
  | rename g h =>
    have htmp : s.tmp = some ArtifactState.complete := hfin g h
    have hnoact : ∀ x, activeGen (renameState s g) x → False := by
      intro x hx
      by_cases hgg : x = g
      · subst hgg
        rcases hx with hx | hx <;> rw [phase_renameState_self] at hx <;> cases hx
      · have hax : activeGen s x := by
          rcases hx with hx | hx
          · exact Or.inl (by rwa [phase_renameState_ne s hgg] at hx)
          · exact Or.inr (by rwa [phase_renameState_ne s hgg] at hx)
        exact hgg (hone x g hax (Or.inr h))
    refine ⟨?_, ?_, ?_, ?_⟩
    · intro a ha
      rw [renameState_zip, htmp] at ha
      simp at ha
      rw [← ha]
    · intro g' hp
      exact absurd (Or.inl hp) (fun hh => hnoact g' hh)
    · intro g' hp
      exact absurd (Or.inr hp) (fun hh => hnoact g' hh)
    · intro g1 g2 h1 _
      exact absurd h1 (fun hh => hnoact g1 hh)
  | fail g h =>
    have hback : ∀ x, activeGen (setPhase s g GenPhase.done) x →
        activeGen s x ∧ x ≠ g := by
      intro x hx
      by_cases hgg : x = g
      · subst hgg
        rcases hx with hx | hx <;> rw [phase_setPhase_self] at hx <;> cases hx
      · refine ⟨?_, hgg⟩
        rcases hx with hx | hx
        · exact Or.inl (by rwa [phase_setPhase_ne s GenPhase.done hgg] at hx)
        · exact Or.inr (by rwa [phase_setPhase_ne s GenPhase.done hgg] at hx)
    refine ⟨?_, ?_, ?_, ?_⟩
    · intro a ha
      rw [zip_setPhase] at ha
      exact hzip a ha
    · intro g' hp
      have hb := hback g' (Or.inl hp)
      exact absurd (hone g' g hb.1 (Or.inl h)) hb.2
    · intro g' hp
      have hb := hback g' (Or.inr hp)
      exact absurd (hone g' g hb.1 (Or.inl h)) hb.2
    · intro g1 g2 h1 h2
      exact hone g1 g2 (hback g1 h1).1 (hback g2 h2).1
  | evict =>
    refine ⟨?_, ?_, ?_, ?_⟩
    · intro a ha
      rw [zip_evict] at ha
      cases ha
    · intro g' hp
      rw [phase_evict] at hp
      exact hwri g' hp
    · intro g' hp
      rw [phase_evict] at hp
      exact hfin g' hp
    · intro g1 g2 h1 h2
      have r1 : activeGen s g1 := by
        rcases h1 with h1 | h1
        · exact Or.inl (by rwa [phase_evict] at h1)
        · exact Or.inr (by rwa [phase_evict] at h1)
      have r2 : activeGen s g2 := by
        rcases h2 with h2 | h2
        · exact Or.inl (by rwa [phase_evict] at h2)
        · exact Or.inr (by rwa [phase_evict] at h2)
      exact hone g1 g2 r1 r2

lemma keyGenInv_reachable {s : KeyGenState} (h : ReachableKeyGenSolo s) : KeyGenInv s := by
  induction h with
  | refl => exact keyGenInv_init
  | tail _ hstep ih => exact keyGenInv_preserved hstep ih

/-- C3 (amended): the artifact `<key>.zip` comes into existence only by
the finish-handler rename of `<key>.zip.tmp`; provided generations for
the same key never overlap — no new write stream truncates the temp file
while an earlier generation for the key is in flight — every artifact a
lookup can return is a complete, fully-assembled archive (and each such
non-overlapping execution is an execution of the code).  When
pre-generation runs overlap, the unconditional rename can instead
publish a partially written archive. -/
theorem solo_lookup_artifact_complete (s : KeyGenState) (h : ReachableKeyGenSolo s) :
    (∀ a, lookupArtifact s = some a → a = ArtifactState.complete) ∧
    ReachableKeyGen s := by
  constructor
  · intro a ha
    exact (keyGenInv_reachable h).1 a ha
  · exact Relation.ReflTransGen.mono (fun _ _ hs => soloStep_step hs) h

/-- Witness for C3 (amended): a single non-overlapping generation —
start, stream finish, rename — publishes the artifact, and the theorem
yields its completeness. -/
theorem solo_lookup_artifact_complete_witness :
    ReachableKeyGenSolo
      ⟨none, some ArtifactState.complete, GenPhase.done, GenPhase.idle, none⟩ ∧
    ArtifactState.complete = ArtifactState.complete := by
  have hchain : ReachableKeyGenSolo
      ⟨none, some ArtifactState.complete, GenPhase.done, GenPhase.idle, none⟩ :=
    Relation.ReflTransGen.head
      (KeyGenSoloStep.start initKeyGen false rfl (by simp [activeGen, phase, initKeyGen]))
      (Relation.ReflTransGen.head
        (KeyGenSoloStep.finishStream ⟨some ArtifactState.inProgress, none,
          GenPhase.writing, GenPhase.idle, some false⟩ false rfl)
        (Relation.ReflTransGen.single
          (KeyGenSoloStep.rename ⟨some ArtifactState.complete, none,
            GenPhase.finished, GenPhase.idle, some false⟩ false rfl)))
  exact ⟨hchain,
    (solo_lookup_artifact_complete _ hchain).1 ArtifactState.complete rfl⟩

/-! ### Claim C1

The directory-path comparator `charListLt` is a strict total order, so
the sort — and with it the cache key — depends only on the multiset of
paths.  Duplicates survive the sort, however, and change the `|`-joined
string, so the key is not a function of the set alone.
-/

lemma charListLt_irrefl (l : List Char) : charListLt l l = false := by
  induction l with
  | nil => rfl
  | cons c rest ih => simp [charListLt, ih]

lemma charListLt_trans {a b c : List Char} (hab : charListLt a b = true)
    (hbc : charListLt b c = true) : charListLt a c = true := by
  induction a generalizing b c with
  | nil =>
    cases b with
    | nil => simp [charListLt] at hab
    | cons y bs =>
      cases c with
      | nil => simp [charListLt] at hbc
      | cons z cs => simp [charListLt]
  | cons x as ih =>
    cases b with
    | nil => simp [charListLt] at hab
    | cons y bs =>
      cases c with
      | nil => simp [charListLt] at hbc
      | cons z cs =>
        simp only [charListLt] at hab hbc ⊢
        rcases Nat.lt_trichotomy x.toNat y.toNat with hxy | hxy | hxy
        · rcases Nat.lt_trichotomy y.toNat z.toNat with hyz | hyz | hyz
          · rw [if_pos (by omega)]
          · rw [if_pos (by omega)]
          · rw [if_neg (by omega), if_pos hyz] at hbc
            cases hbc
        · rw [if_neg (by omega), if_neg (by omega)] at hab
          rcases Nat.lt_trichotomy y.toNat z.toNat with hyz | hyz | hyz
          · rw [if_pos (by omega)]
          · rw [if_neg (by omega), if_neg (by omega)] at hbc
            rw [if_neg (by omega), if_neg (by omega)]
            exact ih hab hbc
          · rw [if_neg (by omega), if_pos hyz] at hbc
            cases hbc
        · rw [if_neg (by omega), if_pos hxy] at hab
          cases hab

lemma charListLt_asymm {a b : List Char} (h : charListLt a b = true) :
    charListLt b a = false := by
  by_contra hb
  rw [Bool.not_eq_false] at hb
  have := charListLt_trans h hb
  rw [charListLt_irrefl] at this
  cases this

lemma charListLt_connected {a b : List Char} (hab : charListLt a b = false)
    (hba : charListLt b a = false) : a = b := by
  induction a generalizing b with
  | nil =>
    cases b with
    | nil => rfl
    | cons y bs => simp [charListLt] at hab
  | cons x as ih =>
    cases b with
    | nil => simp [charListLt] at hba
    | cons y bs =>
      simp only [charListLt] at hab hba
      rcases Nat.lt_trichotomy x.toNat y.toNat with hxy | hxy | hxy
      · rw [if_pos hxy] at hab
        cases hab
      · rw [if_neg (by omega), if_neg (by omega)] at hab hba
        have hx : x = y := by
          exact_mod_cast Char.ofNat_toNat x ▸ Char.ofNat_toNat y ▸
            congrArg Char.ofNat hxy
        rw [hx, ih hab hba]
      · rw [if_pos hxy] at hba
        cases hba

instance : IsTotal String jsStrLe :=
  ⟨fun a b => by
    cases h : charListLt b.data a.data with
    | false => exact Or.inl h
    | true => exact Or.inr (charListLt_asymm h)⟩

instance : IsTrans String jsStrLe :=
  ⟨fun a b c hab hbc => by
    unfold jsStrLe at hab hbc ⊢
    by_contra hca
    rw [Bool.not_eq_false] at hca
    cases h2 : charListLt b.data c.data with
    | true =>
      have := charListLt_trans h2 hca
      rw [hab] at this
      cases this
    | false =>
      have hcb : c.data = b.data := charListLt_connected hbc h2
      rw [hcb] at hca
      rw [hab] at hca
      cases hca⟩

instance : IsAntisymm String jsStrLe :=
  ⟨fun a b hab hba => by
    unfold jsStrLe at hab hba
    have : a.data = b.data := charListLt_connected hba hab
    cases a
    cases b
    exact congrArg String.mk this⟩

/-- C1 counterexample: the lists `["a"]` and `["a", "a"]` contain the
same set of directory identifiers, yet `generateCacheKey` — which sorts
but never deduplicates — produces different keys for them. -/
theorem generateCacheKey_duplicate_sensitive :
    (["a"] : List String).toFinset = (["a", "a"] : List String).toFinset ∧
    generateCacheKey ["a"] ≠ generateCacheKey ["a", "a"] := by
  constructor
  · decide
  · decide

/-- C1 (amended): the cache key is a pure function of the multiset of
directory identifiers: for every two lists that are permutations of each
other — regardless of element ordering — `generateCacheKey` returns an
identical key; duplicated elements, however, may change the key. -/
theorem generateCacheKey_perm_invariant (l₁ l₂ : List String) (h : l₁.Perm l₂) :
    generateCacheKey l₁ = generateCacheKey l₂ := by
  unfold generateCacheKey
  have hsort : List.insertionSort jsStrLe l₁ = List.insertionSort jsStrLe l₂ :=
    List.eq_of_perm_of_sorted
      ((List.perm_insertionSort jsStrLe l₁).trans
        (h.trans (List.perm_insertionSort jsStrLe l₂).symm))
      (List.sorted_insertionSort jsStrLe l₁)
      (List.sorted_insertionSort jsStrLe l₂)
  rw [hsort]

/-- Witness for C1 (amended): the two orderings of the same two
directories receive the same cache key. -/
theorem generateCacheKey_perm_invariant_witness :
    generateCacheKey ["events/wedding", "events/gala"] =
      generateCacheKey ["events/gala", "events/wedding"] :=
  generateCacheKey_perm_invariant _ _ (by decide)

/-! ### Claim C7 -/

lemma processDirectories_eq (fs : PhotoFs) (config : Option String) (dirs : List String) :
    (processDirectories fs config dirs).1 =
      (dirs.filter (fun d => fs.dirExists (getFullPhotoPath config d))).flatMap
        (fun d => ((fs.readdir (getFullPhotoPath config d)).filter isValidImageFile).map
          (fun f => ⟨pathJoin (getFullPhotoPath config d) f, zipEntryPath d f⟩)) ∧
    (processDirectories fs config dirs).2 =
      dirs.filter (fun d => !(fs.dirExists (getFullPhotoPath config d))) := by
  induction dirs with
  | nil => exact ⟨rfl, rfl⟩
  | cons d rest ih =>
    cases hd : fs.dirExists (getFullPhotoPath config d) with
    | true =>
      constructor
      · simp only [processDirectories, processDirectory, hd, if_true, List.filter_cons,
          List.flatMap_cons, ih.1]
      · simp only [processDirectories, processDirectory, hd, if_true, List.filter_cons,
          Bool.not_true, List.nil_append, ih.2]
        simp
    | false =>
      constructor
      · simp only [processDirectories, processDirectory, hd, Bool.false_eq_true, if_false,
          List.filter_cons, List.nil_append, ih.1]
      · simp only [processDirectories, processDirectory, hd, Bool.false_eq_true, if_false,
          List.filter_cons, Bool.not_false, List.singleton_append, ih.2]
        simp

/-- C7: for every request whose directory list contains at least one
nonexistent (or unreadable) directory and at least one valid directory,
assembly does not fail: the missing directory is recorded as a skip (the
skip list is exactly the missing directories, hence non-empty) and the
produced archive contains exactly the eligible image files of the
existing directories. -/
theorem processDirectories_soft_skip (fs : PhotoFs) (config : Option String)
    (dirs : List String)
    (hmiss : ∃ d ∈ dirs, fs.dirExists (getFullPhotoPath config d) = false)
    (hvalid : ∃ d ∈ dirs, fs.dirExists (getFullPhotoPath config d) = true) :
    (processDirectories fs config dirs).1 =
      (dirs.filter (fun d => fs.dirExists (getFullPhotoPath config d))).flatMap
        (fun d => ((fs.readdir (getFullPhotoPath config d)).filter isValidImageFile).map
          (fun f => ⟨pathJoin (getFullPhotoPath config d) f, zipEntryPath d f⟩)) ∧
    (processDirectories fs config dirs).2 =
      dirs.filter (fun d => !(fs.dirExists (getFullPhotoPath config d))) ∧
    (processDirectories fs config dirs).2 ≠ [] ∧
    (dirs.filter (fun d => fs.dirExists (getFullPhotoPath config d))) ≠ [] := by
  obtain ⟨dm, hdm, hdmiss⟩ := hmiss
  obtain ⟨dv, hdv, hdvalid⟩ := hvalid
  refine ⟨(processDirectories_eq fs config dirs).1,
    (processDirectories_eq fs config dirs).2, ?_, ?_⟩
  · rw [(processDirectories_eq fs config dirs).2]
    have : dm ∈ dirs.filter (fun d => !(fs.dirExists (getFullPhotoPath config d))) :=
      List.mem_filter.mpr ⟨hdm, by rw [hdmiss]; rfl⟩
    exact List.ne_nil_of_mem this
  · have : dv ∈ dirs.filter (fun d => fs.dirExists (getFullPhotoPath config d)) :=
      List.mem_filter.mpr ⟨hdv, hdvalid⟩
    exact List.ne_nil_of_mem this

/-- Witness for C7 at a concrete filesystem with one existing directory
(`good`, holding one image and one text file) and one missing directory
(`bad`): the missing directory is recorded as a skip while processing
continues. -/
theorem processDirectories_soft_skip_witness :
    (processDirectories
      ⟨fun p => p == "/mnt/psd/good",
        fun p => if p == "/mnt/psd/good" then ["x.jpg", "note.txt"] else []⟩
      none ["good", "bad"]).2 ≠ [] :=
  (processDirectories_soft_skip
    ⟨fun p => p == "/mnt/psd/good",
      fun p => if p == "/mnt/psd/good" then ["x.jpg", "note.txt"] else []⟩
    none ["good", "bad"] (by decide) (by decide)).2.2.1

/-! ### Claim C8 -/

lemma string_data_inj {a b : String} (h : a.data = b.data) : a = b := by
  cases a
  cases b
  exact congrArg String.mk h

lemma plainSeg_facts {s : String} (h : plainSeg s = true) :
    s.data ≠ [] ∧ s.data ≠ ['.'] ∧ s.data ≠ ['.', '.'] ∧ '/' ∉ s.data := by
  simp only [plainSeg, Bool.and_eq_true, bne_iff_ne, Bool.not_eq_true',
    decide_eq_false_iff_not] at h
  refine ⟨?_, ?_, ?_, h.2⟩
  · intro hd
    exact h.1.1.1 (string_data_inj (by rw [hd]))
  · intro hd
    exact h.1.1.2 (string_data_inj (by rw [hd]))
  · intro hd
    exact h.1.2 (string_data_inj (by rw [hd]))

lemma splitSlash_no_slash {l : List Char} (h : '/' ∉ l) : splitSlash l = [l] := by
  induction l with
  | nil => rfl
  | cons c rest ih =>
    have hc : c ≠ '/' := fun hh => h (hh ▸ List.mem_cons_self c rest)
    have hrest : '/' ∉ rest := fun hh => h (List.mem_cons_of_mem c hh)
    simp only [splitSlash, if_neg hc, ih hrest]

lemma splitSlash_append {a : List Char} (b : List Char) (h : '/' ∉ a) :
    splitSlash (a ++ '/' :: b) = a :: splitSlash b := by
  induction a with
  | nil => simp [splitSlash]
  | cons c rest ih =>
    have hc : c ≠ '/' := fun hh => h (hh ▸ List.mem_cons_self c rest)
    have hrest : '/' ∉ rest := fun hh => h (List.mem_cons_of_mem c hh)
    simp only [List.cons_append, splitSlash, if_neg hc, List.append_eq]
    rw [ih hrest]

lemma normCore_push {seg : List Char} (isAbs : Bool) (acc : List (List Char))
    (rest : List (List Char)) (h0 : seg ≠ []) (h1 : seg ≠ ['.']) (h2 : seg ≠ ['.', '.']) :
    normCore isAbs acc (seg :: rest) = normCore isAbs (seg :: acc) rest := by
  have hor : ¬ (seg = [] ∨ seg = ['.']) := fun hh => hh.elim h0 h1
  simp only [normCore, if_neg hor, if_neg h2]

lemma pathJoin_plain (a b : String) (ha : plainSeg a = true) (hb : plainSeg b = true) :
    pathJoin a b = a ++ "/" ++ b := by
  obtain ⟨hane, had1, had2, hasl⟩ := plainSeg_facts ha
  obtain ⟨hbne, hbd1, hbd2, hbsl⟩ := plainSeg_facts hb
  have hastr : a ≠ "" := fun h => hane (by rw [h])
  have hbstr : b ≠ "" := fun h => hbne (by rw [h])
  have hcs : (a ++ "/" ++ b).data = a.data ++ '/' :: b.data := by
    rw [String.data_append, String.data_append]
    simp
  obtain ⟨x, xs, hax⟩ : ∃ x xs, a.data = x :: xs := by
    cases hd : a.data with
    | nil => exact absurd hd hane
    | cons x xs => exact ⟨x, xs, rfl⟩
  have hxslash : x ≠ '/' := fun h => hasl (by rw [hax, h]; exact List.mem_cons_self _ _)
  obtain ⟨y, ys, hby⟩ : ∃ y ys, b.data = y :: ys := by
    cases hd : b.data with
    | nil => exact absurd hd hbne
    | cons y ys => exact ⟨y, ys, rfl⟩
  have hsplit : splitSlash (a.data ++ '/' :: b.data) = a.data :: splitSlash b.data :=
    splitSlash_append b.data hasl
  have hsplitb : splitSlash b.data = [b.data] := splitSlash_no_slash hbsl
  have hnorm : ∀ ab : Bool, normCore ab [] (a.data :: [b.data]) = [a.data, b.data] := by
    intro ab
    rw [normCore_push ab [] [b.data] hane had1 had2,
      normCore_push ab [a.data] [] hbne hbd1 hbd2]
    rfl
  have hjoin : joinSegs [a.data, b.data] = a.data ++ '/' :: b.data := by
    simp [joinSegs]
  have hbody : a.data ++ '/' :: b.data ≠ [] := by
    rw [hax]
    simp
  have hhead : (a.data ++ '/' :: b.data).head? = some x := by
    rw [hax]
    simp
  have hlastb : ('/' :: b.data).getLast? = b.data.getLast? := by
    rw [hby]
    exact List.getLast?_cons_cons
  have hlast : (a.data ++ '/' :: b.data).getLast? = b.data.getLast? := by
    rw [List.getLast?_append_of_ne_nil a.data (by simp), hlastb]
  have hlastne : (a.data ++ '/' :: b.data).getLast? ≠ some '/' := by
    rw [hlast]
    intro hsome
    apply hbsl
    obtain ⟨hne, heq⟩ := List.mem_getLast?_eq_getLast (show '/' ∈ b.data.getLast? by
      rw [hsome]; exact rfl)
    rw [heq]
    exact List.getLast_mem hne
  rw [pathJoin, if_neg (fun h => hastr h.1), if_neg hastr, if_neg hbstr]
  rw [pathNormalize]
  simp only [hcs, hsplit, hsplitb, hnorm, hjoin]
  rw [if_neg hbody, if_neg hlastne, if_neg (by rw [hhead]; simp [hxslash])]
  exact (string_data_inj hcs).symm

/-- C8: every file included in the archive has an archive-internal path
equal to the basename of its owning directory identifier followed by `/`
and the filename — all path segments above the immediate parent are
dropped — so any two directories sharing a basename under different
parents map their files into the same archive namespace. -/
theorem zipEntryPath_flattens (d₁ d₂ f : String)
    (h₁ : plainSeg (basename d₁) = true) (hf : plainSeg f = true)
    (heq : basename d₂ = basename d₁) :
    zipEntryPath d₁ f = basename d₁ ++ "/" ++ f ∧
    zipEntryPath d₂ f = zipEntryPath d₁ f := by
  constructor
  · exact pathJoin_plain (basename d₁) f h₁ hf
  · rw [zipEntryPath, zipEntryPath, heq]

/-- Witness for C8: two directories with different parents but the same
basename (`00July2025/08070018` and `other/08070018`) send the file
`p.jpg` to the same flattened archive path `08070018/p.jpg`. -/
theorem zipEntryPath_flattens_witness :
    zipEntryPath "00July2025/08070018" "p.jpg" =
      basename "00July2025/08070018" ++ "/" ++ "p.jpg" ∧
    zipEntryPath "other/08070018" "p.jpg" = zipEntryPath "00July2025/08070018" "p.jpg" :=
  zipEntryPath_flattens "00July2025/08070018" "other/08070018" "p.jpg"
    (by decide) (by decide) (by decide)

/-! ### Claim C9 -/

lemma stripSeps_head (l : List Char) :
    ∀ c, (stripSeps l).head? = some c → isSepChar c = false := by
  induction l with
  | nil =>
    intro c hc
    simp [stripSeps] at hc
  | cons x rest ih =>
    intro c hc
    cases hx : isSepChar x with
    | true =>
      rw [stripSeps, List.dropWhile_cons, if_pos hx] at hc
      exact ih c hc
    | false =>
      rw [stripSeps, List.dropWhile_cons, if_neg (by rw [hx]; exact Bool.false_ne_true)] at hc
      rw [List.head?_cons, Option.some.injEq] at hc
      rw [← hc]
      exact hx

lemma stripDotDot_no_lead (l : List Char) :
    (stripDotDot l).take 3 ≠ ['.', '.', '/'] ∧
    (stripDotDot l).take 3 ≠ ['.', '.', '\\'] := by
  induction l using stripDotDot.induct with
  | case1 c1 c2 c3 rest hcond ih =>
    rw [stripDotDot, if_pos hcond]
    exact ih
  | case2 c1 c2 c3 rest hcond =>
    rw [stripDotDot, if_neg hcond]
    constructor
    · intro h
      simp only [List.take_succ_cons, List.take_zero, List.cons.injEq, and_true] at h
      exact hcond ⟨h.1, h.2.1, Or.inl h.2.2⟩
    · intro h
      simp only [List.take_succ_cons, List.take_zero, List.cons.injEq, and_true] at h
      exact hcond ⟨h.1, h.2.1, Or.inr h.2.2⟩
  | case3 l hshape =>
    rcases l with _ | ⟨c1, _ | ⟨c2, _ | ⟨c3, rest⟩⟩⟩
    · constructor <;> intro h <;> simp [stripDotDot] at h
    · constructor <;> intro h <;> simp [stripDotDot] at h
    · constructor <;> intro h <;> simp [stripDotDot] at h
    · exact (hshape c1 c2 c3 rest rfl).elim

/-- C9 counterexample: a bare `..` (no trailing separator) survives
`sanitizePath`'s leading-`../` removal, so `getFullPhotoPath` resolves
above the photos base directory: the result for `..` (or `../..`) is
`/mnt`, which is not inside `/mnt/psd`. -/
theorem getFullPhotoPath_escapes_on_bare_dotdot :
    getFullPhotoPath none ".." = "/mnt" ∧
    List.isPrefixOf "/mnt/psd".data (getFullPhotoPath none "..").data = false ∧
    getFullPhotoPath none "../.." = "/mnt" := by
  exact ⟨by decide, by decide, by decide⟩

/-- C9 (amended): for every relative directory path input,
`getFullPhotoPath` returns the configured photos base path joined with
the sanitized relative path; sanitization normalizes the input, removes
leading separator-terminated `../` (or `..\`) sequences — after this
stage no leading `../` or `..\` remains — and strips leading path
separators, so the sanitized path never begins with a separator; a bare
`..` without a trailing separator survives, however, so the returned
path can still escape the photos base directory. -/
theorem getFullPhotoPath_sanitizes (config : Option String) (relativePath : String) :
    getFullPhotoPath config relativePath =
      pathJoin (getPhotosBasePath config) (sanitizePath relativePath) ∧
    (∀ c, (sanitizePath relativePath).data.head? = some c → isSepChar c = false) ∧
    (stripDotDot (pathNormalize relativePath).data).take 3 ≠ ['.', '.', '/'] ∧
    (stripDotDot (pathNormalize relativePath).data).take 3 ≠ ['.', '.', '\\'] := by
  refine ⟨rfl, ?_, (stripDotDot_no_lead _).1, (stripDotDot_no_lead _).2⟩
  intro c hc
  exact stripSeps_head _ c hc

/-- Witness for C9 (amended) at the absolute-path input `/etc/x`: the
result is the base joined with the sanitized path, whose head `e` is not
a separator. -/
theorem getFullPhotoPath_sanitizes_witness :
    getFullPhotoPath none "/etc/x" =
      pathJoin (getPhotosBasePath none) (sanitizePath "/etc/x") ∧
    isSepChar 'e' = false :=
  ⟨(getFullPhotoPath_sanitizes none "/etc/x").1,
    (getFullPhotoPath_sanitizes none "/etc/x").2.1 'e' (by decide)⟩

end PhotoStDenis
